import Mathlib

/-!
Verification of the SHAD distributed Hashmap facade
(src/include/shad/data_structures/hashmap.h).

The facade routes every operation on a key to the key's owning locality,
computed as HashFunction(key, 0) % numLocalities. Each locality holds one
local shard (a LocalHashmap) plus a vector of outbound aggregation buffers.
The facade header is embedded function by function below; the collaborators
that are not part of the given sources (local_hashmap.h, buffer.h, the hash
utilities and the RPC runtime) are modelled from the specification, as noted
on each such definition. Localities are natural numbers 0 .. N-1; the hash
function is an abstract parameter; remote execution is modelled by its effect
on the target locality's state, and asynchronous operations are modelled at
completion of their handle.
-/

set_option autoImplicit false
set_option linter.unusedSectionVars false

namespace SHAD

/-- Key-value entry as stored in shards and in aggregation buffers, mirroring
Hashmap::EntryT of hashmap.h. -/
structure EntryT (K V : Type) where
  key : K
  value : V
deriving DecidableEq

/-- Result record of a lookup, mirroring LocalHashmap::LookupResult: a found
flag plus a value slot. -/
structure LookupResult (V : Type) where
  found : Bool
  value : V
deriving DecidableEq

/-- Modelled from the spec: the local per-shard hashmap (local_hashmap.h is
not among the given sources). The shard is a concurrent local hashmap keeping
at most one entry per key; it is modelled as an association list. -/
abbrev LocalHashmap (K V : Type) := List (EntryT K V)

namespace LocalHashmap

variable {K V : Type} [DecidableEq K]

/-- value bound to key k in the shard, if any. -/
def lookupKey (m : LocalHashmap K V) (k : K) : Option V :=
  (m.find? fun e => e.key = k).map EntryT.value

/-- true iff the shard holds an entry for key k. -/
def containsKey (m : LocalHashmap K V) (k : K) : Bool :=
  (lookupKey m k).isSome

/-- keys currently resident in the shard. -/
def keysOf (m : LocalHashmap K V) : List K :=
  m.map EntryT.key

/-- Modelled from the spec: shard Insert under the default overwrite
InsertPolicy: the new value replaces any value previously bound to the same
key. -/
def Insert (m : LocalHashmap K V) (k : K) (v : V) : LocalHashmap K V :=
  EntryT.mk k v :: m.filter fun e => e.key ≠ k

/-- Modelled from the spec: shard Erase removes the entry for the key if
present and is a no-op otherwise. -/
def Erase (m : LocalHashmap K V) (k : K) : LocalHashmap K V :=
  m.filter fun e => e.key ≠ k

/-- Modelled from the spec: shard Lookup(key, VTYPE* res) returns true and
copies the value into the out-cell on a hit; on not-found the out-value is
untouched. The argument cell is the contents of the out-cell before the
call. -/
def Lookup (m : LocalHashmap K V) (k : K) (cell : V) : Bool × V :=
  match lookupKey m k with
  | some v => (true, v)
  | none => (false, cell)

/-- Modelled from the spec: the shard lookup writing through a LookupResult
out-parameter: the found flag is always set, and the value slot is written
only on a hit. The argument r is the contents of the out-parameter before
the call. -/
def LookupRes (m : LocalHashmap K V) (k : K) (r : LookupResult V) : LookupResult V :=
  match lookupKey m k with
  | some v => LookupResult.mk true v
  | none => LookupResult.mk false r.value

/-- Modelled from the spec: shard Apply invokes the user function on the
value under the bucket lock when the key is present; on an absent key the
shard treats the call as a no-op. -/
def Apply (m : LocalHashmap K V) (k : K) (f : K → V → V) : LocalHashmap K V :=
  m.map fun e => if e.key = k then EntryT.mk e.key (f e.key e.value) else e

end LocalHashmap

/-- Owning locality of a key: HashFunction(key, 0) % rt::numLocalities(), the
expression computed identically by every routed operation of hashmap.h. The
hash function itself (compare_and_hash_utils.h is not among the given
sources) is an abstract parameter. -/
def owner {K : Type} (hash : K → Nat → Nat) (N : Nat) (k : K) : Nat :=
  hash k 0 % N

/-- Fleet-wide state of one distributed Hashmap instance: the local shard
(the localMap_ member) of every locality, and the outbound aggregation
buffers (the buffers_ member) of every locality, indexed source locality
first. Localities are 0 .. N-1. -/
structure GlobalState (K V : Type) where
  shards : Nat → LocalHashmap K V
  buffers : Nat → Nat → List (EntryT K V)

variable {K V : Type}

/-- state with the shard of locality i replaced. -/
def setShard (st : GlobalState K V) (i : Nat) (m : LocalHashmap K V) : GlobalState K V :=
  { st with shards := fun j => if j = i then m else st.shards j }

/-- state with the outbound buffer of source s toward destination d
replaced. -/
def setBuf (st : GlobalState K V) (s d : Nat) (b : List (EntryT K V)) : GlobalState K V :=
  { st with buffers := fun s2 d2 => if s2 = s ∧ d2 = d then b else st.buffers s2 d2 }

/-- state of a freshly created instance: every shard and every outbound
buffer is empty. -/
def emptyState (K V : Type) : GlobalState K V :=
  GlobalState.mk (fun _ => []) (fun _ _ => [])

section Facade

variable [DecidableEq K]

namespace Hashmap

/-- Hashmap::BufferEntryInsert (hashmap.h): replays one shipped entry into
the local shard of locality L. -/
def BufferEntryInsert (st : GlobalState K V) (L : Nat) (e : EntryT K V) : GlobalState K V :=
  setShard st L ((st.shards L).Insert e.key e.value)

end Hashmap

namespace BuffersVector

/-- Modelled from the spec: shipping one outbound batch (buffer.h is not
among the given sources). The batch buffered at src toward dst is sent as a
single call that, on the receiver, replays each entry into the local shard
through Hashmap::BufferEntryInsert; the buffer is then reset. -/
def shipBuffer (st : GlobalState K V) (src dst : Nat) : GlobalState K V :=
  let batch := st.buffers src dst
  setBuf (batch.foldl (fun s e => Hashmap.BufferEntryInsert s dst e) st) src dst []

/-- Modelled from the spec: BuffersVector::Insert. Each outbound buffer is
bounded by the threshold T; while below the threshold the entry is appended,
and appending to a full buffer first ships the full batch, after which the
new entry goes into the fresh buffer. -/
def Insert (T : Nat) (st : GlobalState K V) (e : EntryT K V) (src dst : Nat) : GlobalState K V :=
  if (st.buffers src dst).length < T then
    setBuf st src dst (st.buffers src dst ++ [e])
  else
    setBuf (shipBuffer st src dst) src dst [e]

/-- Modelled from the spec: BuffersVector::AsyncInsert buffers exactly like
the synchronous variant; only the eventual ship is attached to the caller's
handle. Modelled at completion. -/
def AsyncInsert (T : Nat) (st : GlobalState K V) (e : EntryT K V) (src dst : Nat) : GlobalState K V :=
  if (st.buffers src dst).length < T then
    setBuf st src dst (st.buffers src dst ++ [e])
  else
    setBuf (shipBuffer st src dst) src dst [e]

/-- Modelled from the spec: BuffersVector::FlushAll at locality src ships the
residual batch of every destination buffer; idempotent on empty buffers. -/
def FlushAll (N : Nat) (st : GlobalState K V) (src : Nat) : GlobalState K V :=
  (List.range N).foldl (fun s dst => shipBuffer s src dst) st

end BuffersVector

namespace Hashmap

variable (hash : K → Nat → Nat) (N T : Nat)

/-- Hashmap::Insert (hashmap.h lines 325-340): compute the target locality
from the stable hash of the key; when the target is the calling locality,
insert into the local shard, otherwise execute the insert at the target
locality. -/
def Insert (st : GlobalState K V) (here : Nat) (k : K) (v : V) : GlobalState K V :=
  let targetLocality := owner hash N k
  if targetLocality = here then
    setShard st here ((st.shards here).Insert k v)
  else
    setShard st targetLocality ((st.shards targetLocality).Insert k v)

/-- Hashmap::AsyncInsert (hashmap.h lines 342-359): same routing as Insert,
delegating to the shard's asynchronous insert locally or through
asyncExecuteAt remotely; modelled at completion of the handle. -/
def AsyncInsert (st : GlobalState K V) (here : Nat) (k : K) (v : V) : GlobalState K V :=
  let targetLocality := owner hash N k
  if targetLocality = here then
    setShard st here ((st.shards here).Insert k v)
  else
    setShard st targetLocality ((st.shards targetLocality).Insert k v)

/-- Hashmap::BufferedInsert (hashmap.h lines 361-372): when the target is the
calling locality, insert directly into the local shard; otherwise append the
entry to the outbound buffer toward the target. -/
def BufferedInsert (st : GlobalState K V) (here : Nat) (k : K) (v : V) : GlobalState K V :=
  let targetLocality := owner hash N k
  if targetLocality = here then
    setShard st here ((st.shards here).Insert k v)
  else
    BuffersVector.Insert T st (EntryT.mk k v) here targetLocality

/-- Hashmap::BufferedAsyncInsert (hashmap.h lines 374-388): as BufferedInsert
with the shard's asynchronous insert on the local path and the buffers'
asynchronous insert on the remote path; modelled at completion. -/
def BufferedAsyncInsert (st : GlobalState K V) (here : Nat) (k : K) (v : V) : GlobalState K V :=
  let targetLocality := owner hash N k
  if targetLocality = here then
    setShard st here ((st.shards here).Insert k v)
  else
    BuffersVector.AsyncInsert T st (EntryT.mk k v) here targetLocality

/-- Hashmap::WaitForBufferedInsert (hashmap.h lines 127-133): executeOnAll of
a lambda that flushes every outbound buffer of its locality. -/
def WaitForBufferedInsert (st : GlobalState K V) : GlobalState K V :=
  (List.range N).foldl (fun s L => BuffersVector.FlushAll N s L) st

/-- Hashmap::Erase (hashmap.h lines 390-407): route to the owner and erase
there. -/
def Erase (st : GlobalState K V) (here : Nat) (k : K) : GlobalState K V :=
  let targetLocality := owner hash N k
  if targetLocality = here then
    setShard st here ((st.shards here).Erase k)
  else
    setShard st targetLocality ((st.shards targetLocality).Erase k)

/-- Hashmap::AsyncErase (hashmap.h lines 409-426): same routing as Erase;
modelled at completion of the handle. -/
def AsyncErase (st : GlobalState K V) (here : Nat) (k : K) : GlobalState K V :=
  let targetLocality := owner hash N k
  if targetLocality = here then
    setShard st here ((st.shards here).Erase k)
  else
    setShard st targetLocality ((st.shards targetLocality).Erase k)

/-- the two-way branch of Hashmap::Lookup (hashmap.h lines 430-451): the
local branch returns the local shard lookup; the remote branch performs the
lookup at the target into a LookupResult lres and copies the value into the
out-cell only when found. A value of none would represent falling through to
the trailing return false. The argument junk models the uninitialized value
slot of lres, and res the contents of the out-cell before the call. -/
def lookupBranches (st : GlobalState K V) (here : Nat) (k : K) (res junk : V) : Option (Bool × V) :=
  let targetLocality := owner hash N k
  if targetLocality = here then
    some ((st.shards here).Lookup k res)
  else
    let lres := LocalHashmap.LookupRes (st.shards targetLocality) k (LookupResult.mk false junk)
    if lres.found then some (lres.found, lres.value) else some (lres.found, res)

/-- Hashmap::Lookup (hashmap.h lines 428-451): the branches above, followed
by the trailing return false, which leaves the out-cell untouched. -/
def Lookup (st : GlobalState K V) (here : Nat) (k : K) (res junk : V) : Bool × V :=
  (lookupBranches hash N st here k res junk).getD (false, res)

/-- Hashmap::AsyncLookup (hashmap.h lines 453-473): the local branch hands
the out-parameter to the shard's asynchronous lookup; the remote branch
performs the lookup into a scratch LookupResult tres and then assigns the
whole of tres to the out-parameter. The argument junk models the
uninitialized value slot of tres, and res the contents of the out-parameter
before the call; modelled at completion of the handle. -/
def AsyncLookup (st : GlobalState K V) (here : Nat) (k : K) (res : LookupResult V) (junk : V) : LookupResult V :=
  let targetLocality := owner hash N k
  if targetLocality = here then
    LocalHashmap.LookupRes (st.shards here) k res
  else
    let tres := LocalHashmap.LookupRes (st.shards targetLocality) k (LookupResult.mk false junk)
    tres

/-- Hashmap::Apply (hashmap.h lines 562-587): route to the owner and apply
the user function to the resident value there. -/
def Apply (st : GlobalState K V) (here : Nat) (k : K) (f : K → V → V) : GlobalState K V :=
  let targetLocality := owner hash N k
  if targetLocality = here then
    setShard st here ((st.shards here).Apply k f)
  else
    setShard st targetLocality ((st.shards targetLocality).Apply k f)

/-- Hashmap::AsyncApply (hashmap.h lines 589-618): same routing as Apply;
modelled at completion of the handle. -/
def AsyncApply (st : GlobalState K V) (here : Nat) (k : K) (f : K → V → V) : GlobalState K V :=
  let targetLocality := owner hash N k
  if targetLocality = here then
    setShard st here ((st.shards here).Apply k f)
  else
    setShard st targetLocality ((st.shards targetLocality).Apply k f)

/-- Hashmap::Size (hashmap.h lines 305-321): the calling locality's shard
size, plus a synchronous size-read of the shard of every other locality. -/
def Size (st : GlobalState K V) (here : Nat) : Nat :=
  (List.range N).foldl
    (fun acc tgtLoc => if tgtLoc ≠ here then acc + (st.shards tgtLoc).length else acc)
    (st.shards here).length

end Hashmap

/-- one facade insertion call in a trace: the insert variant used, the
calling locality, and the key-value pair. -/
inductive InsOp (K V : Type) where
  | insert (here : Nat) (k : K) (v : V)
  | asyncInsert (here : Nat) (k : K) (v : V)
  | bufferedInsert (here : Nat) (k : K) (v : V)
  | bufferedAsyncInsert (here : Nat) (k : K) (v : V)
deriving DecidableEq

/-- calling locality of an insertion call. -/
def InsOp.here : InsOp K V → Nat
  | .insert h _ _ => h
  | .asyncInsert h _ _ => h
  | .bufferedInsert h _ _ => h
  | .bufferedAsyncInsert h _ _ => h

/-- key of an insertion call. -/
def InsOp.key : InsOp K V → K
  | .insert _ k _ => k
  | .asyncInsert _ k _ => k
  | .bufferedInsert _ k _ => k
  | .bufferedAsyncInsert _ k _ => k

/-- effect of one insertion call on the fleet state. -/
def stepIns (hash : K → Nat → Nat) (N T : Nat) (st : GlobalState K V) : InsOp K V → GlobalState K V
  | .insert h k v => Hashmap.Insert hash N st h k v
  | .asyncInsert h k v => Hashmap.AsyncInsert hash N st h k v
  | .bufferedInsert h k v => Hashmap.BufferedInsert hash N T st h k v
  | .bufferedAsyncInsert h k v => Hashmap.BufferedAsyncInsert hash N T st h k v

/-- effect of a trace of insertion calls, first call first. -/
def runIns (hash : K → Nat → Nat) (N T : Nat) (ops : List (InsOp K V)) (st : GlobalState K V) : GlobalState K V :=
  ops.foldl (stepIns hash N T) st

/-- effect of a sequence of BufferedInsert calls, each given as calling
locality, key and value, first call first. -/
def runBufIns (hash : K → Nat → Nat) (N T : Nat) (ops : List (Nat × K × V)) (st : GlobalState K V) : GlobalState K V :=
  ops.foldl (fun s o => Hashmap.BufferedInsert hash N T s o.1 o.2.1 o.2.2) st

/-- a key is recorded somewhere in the fleet: resident in some shard, or
pending in some outbound buffer. -/
def globalHas (st : GlobalState K V) (k : K) : Prop :=
  (∃ i, LocalHashmap.containsKey (st.shards i) k = true) ∨
    (∃ s d, k ∈ (st.buffers s d).map EntryT.key)

/-- entries pending in outbound buffers are always destined to a locality
other than the one buffering them, and live in the buffer slot of their
owner. -/
def bufRemote (hash : K → Nat → Nat) (N : Nat) (st : GlobalState K V) : Prop :=
  ∀ s d e, e ∈ st.buffers s d → owner hash N e.key = d ∧ d ≠ s

/-- fleet invariant tying a state to the list S of keys inserted so far
(without erase): every shard holds only keys it owns, with no duplicate
keys; buffered entries sit in the slot of their owner, away from their
source; no buffer belongs to a source locality outside the fleet; and the
keys recorded anywhere are exactly those of S. -/
structure Inv (hash : K → Nat → Nat) (N : Nat) (st : GlobalState K V) (S : List K) : Prop where
  shardOwner : ∀ i e, e ∈ st.shards i → owner hash N e.key = i
  shardNodup : ∀ i, (LocalHashmap.keysOf (st.shards i)).Nodup
  bufOwner : bufRemote hash N st
  bufSrcHigh : ∀ s d, N ≤ s → st.buffers s d = []
  mem : ∀ k, globalHas st k ↔ k ∈ S

end Facade

namespace LocalHashmap

variable [DecidableEq K]

/-- replay of a batch of entries into one shard, oldest entry first, as done
by the receiver of a shipped buffer. -/
def insFold (m : LocalHashmap K V) (batch : List (EntryT K V)) : LocalHashmap K V :=
  batch.foldl (fun s e => s.Insert e.key e.value) m

@[simp]
theorem lookupKey_nil (k : K) : lookupKey ([] : LocalHashmap K V) k = none := rfl

theorem lookupKey_cons (e : EntryT K V) (m : LocalHashmap K V) (k : K) :
    lookupKey (e :: m) k = if e.key = k then some e.value else lookupKey m k := by
  by_cases h : e.key = k
  · simp [lookupKey, List.find?_cons_of_pos, h]
  · simp [lookupKey, List.find?_cons_of_neg, h]

theorem lookupKey_filterNe (m : LocalHashmap K V) (k k2 : K) :
    lookupKey (m.filter fun e => e.key ≠ k) k2 = if k2 = k then none else lookupKey m k2 := by
  induction m with
  | nil => simp
  | cons e rest ih =>
    by_cases hek : e.key = k
    · rw [List.filter_cons_of_neg (by simp [hek]), ih, lookupKey_cons]
      by_cases h2 : k2 = k
      · simp [h2]
      · have : e.key ≠ k2 := fun hc => h2 (hc ▸ hek)
        simp [h2, this]
    · rw [List.filter_cons_of_pos (by simp [hek]), lookupKey_cons, lookupKey_cons, ih]
      by_cases h2 : k2 = k
      · have : e.key ≠ k2 := fun hc => hek (h2 ▸ hc)
        simp [h2, this, hek]
      · simp [h2]

theorem lookupKey_Insert (m : LocalHashmap K V) (k : K) (v : V) (k2 : K) :
    lookupKey (m.Insert k v) k2 = if k2 = k then some v else lookupKey m k2 := by
  unfold Insert
  rw [lookupKey_cons, lookupKey_filterNe]
  by_cases h2 : k2 = k
  · simp [h2]
  · have hne : k ≠ k2 := fun hc => h2 hc.symm
    simp [h2, hne]

theorem lookupKey_Erase (m : LocalHashmap K V) (k k2 : K) :
    lookupKey (m.Erase k) k2 = if k2 = k then none else lookupKey m k2 :=
  lookupKey_filterNe m k k2

theorem containsKey_iff_mem_keysOf (m : LocalHashmap K V) (k : K) :
    containsKey m k = true ↔ k ∈ keysOf m := by
  simp only [containsKey, lookupKey, Option.isSome_map', List.find?_isSome, keysOf, List.mem_map]
  constructor
  · rintro ⟨e, he, hk⟩
    exact ⟨e, he, by simpa using hk⟩
  · rintro ⟨e, he, hk⟩
    exact ⟨e, he, by simpa using hk⟩

theorem containsKey_Insert (m : LocalHashmap K V) (k : K) (v : V) (k2 : K) :
    containsKey (m.Insert k v) k2 = true ↔ k2 = k ∨ containsKey m k2 = true := by
  simp only [containsKey, lookupKey_Insert]
  by_cases h2 : k2 = k <;> simp [h2]

theorem containsKey_Erase (m : LocalHashmap K V) (k k2 : K) :
    containsKey (m.Erase k) k2 = true ↔ k2 ≠ k ∧ containsKey m k2 = true := by
  simp only [containsKey, lookupKey_Erase]
  by_cases h2 : k2 = k <;> simp [h2]

theorem Erase_of_not_contains (m : LocalHashmap K V) (k : K)
    (h : containsKey m k = false) : m.Erase k = m := by
  unfold Erase
  rw [List.filter_eq_self]
  intro e he
  simp only [decide_eq_true_eq]
  intro hek
  have : containsKey m k = true := by
    rw [containsKey_iff_mem_keysOf]
    exact hek ▸ List.mem_map_of_mem EntryT.key he
  simp [this] at h

theorem mem_Insert (m : LocalHashmap K V) (k : K) (v : V) (e : EntryT K V)
    (h : e ∈ m.Insert k v) : e = EntryT.mk k v ∨ e ∈ m := by
  unfold Insert at h
  rcases List.mem_cons.mp h with h1 | h1
  · exact Or.inl h1
  · exact Or.inr (List.mem_filter.mp h1).1

theorem mem_Erase (m : LocalHashmap K V) (k : K) (e : EntryT K V)
    (h : e ∈ m.Erase k) : e ∈ m :=
  (List.mem_filter.mp h).1

theorem keysOf_filter_sublist (m : LocalHashmap K V) (p : EntryT K V → Bool) :
    List.Sublist (keysOf (m.filter p)) (keysOf m) :=
  List.Sublist.map EntryT.key (List.filter_sublist m)

theorem nodup_keysOf_Insert (m : LocalHashmap K V) (k : K) (v : V)
    (h : (keysOf m).Nodup) : (keysOf (m.Insert k v)).Nodup := by
  unfold Insert keysOf
  rw [List.map_cons]
  refine List.Nodup.cons ?_ ((keysOf_filter_sublist m _).nodup h)
  intro hk
  rcases List.mem_map.mp hk with ⟨e, he, hek⟩
  have := (List.mem_filter.mp he).2
  simp [hek] at this

theorem nodup_keysOf_Erase (m : LocalHashmap K V) (k : K)
    (h : (keysOf m).Nodup) : (keysOf (m.Erase k)).Nodup :=
  (keysOf_filter_sublist m _).nodup h

@[simp]
theorem insFold_nil (m : LocalHashmap K V) : insFold m [] = m := rfl

@[simp]
theorem insFold_cons (m : LocalHashmap K V) (e : EntryT K V) (batch : List (EntryT K V)) :
    insFold m (e :: batch) = insFold (m.Insert e.key e.value) batch := rfl

theorem containsKey_insFold (batch : List (EntryT K V)) (m : LocalHashmap K V) (k : K) :
    containsKey (insFold m batch) k = true ↔
      containsKey m k = true ∨ k ∈ batch.map EntryT.key := by
  induction batch generalizing m with
  | nil => simp
  | cons e rest ih =>
    rw [insFold_cons, ih, containsKey_Insert]
    simp only [List.map_cons, List.mem_cons]
    constructor
    · rintro ((h | h) | h)
      · exact Or.inr (Or.inl h)
      · exact Or.inl h
      · exact Or.inr (Or.inr h)
    · rintro (h | h | h)
      · exact Or.inl (Or.inr h)
      · exact Or.inl (Or.inl h)
      · exact Or.inr h

theorem mem_insFold (batch : List (EntryT K V)) (m : LocalHashmap K V) (e : EntryT K V)
    (h : e ∈ insFold m batch) : e ∈ m ∨ e ∈ batch := by
  induction batch generalizing m with
  | nil => exact Or.inl h
  | cons e2 rest ih =>
    rw [insFold_cons] at h
    rcases ih _ h with h1 | h1
    · rcases mem_Insert _ _ _ _ h1 with h2 | h2
      · exact Or.inr (h2 ▸ List.mem_cons_self e2 rest)
      · exact Or.inl h2
    · exact Or.inr (List.mem_cons_of_mem e2 h1)

theorem nodup_keysOf_insFold (batch : List (EntryT K V)) (m : LocalHashmap K V)
    (h : (keysOf m).Nodup) : (keysOf (insFold m batch)).Nodup := by
  induction batch generalizing m with
  | nil => exact h
  | cons e rest ih => exact ih _ (nodup_keysOf_Insert m e.key e.value h)

end LocalHashmap

theorem GlobalState.ext {st st2 : GlobalState K V}
    (hs : ∀ i, st.shards i = st2.shards i)
    (hb : ∀ s d, st.buffers s d = st2.buffers s d) : st = st2 := by
  cases st
  cases st2
  simp only [GlobalState.mk.injEq]
  exact ⟨funext hs, funext fun s => funext (hb s)⟩

@[simp]
theorem shards_setShard (st : GlobalState K V) (i : Nat) (m : LocalHashmap K V) (j : Nat) :
    (setShard st i m).shards j = if j = i then m else st.shards j := rfl

@[simp]
theorem buffers_setShard (st : GlobalState K V) (i : Nat) (m : LocalHashmap K V) :
    (setShard st i m).buffers = st.buffers := rfl

@[simp]
theorem shards_setBuf (st : GlobalState K V) (s d : Nat) (b : List (EntryT K V)) :
    (setBuf st s d b).shards = st.shards := rfl

@[simp]
theorem buffers_setBuf (st : GlobalState K V) (s d : Nat) (b : List (EntryT K V)) (s2 d2 : Nat) :
    (setBuf st s d b).buffers s2 d2 = if s2 = s ∧ d2 = d then b else st.buffers s2 d2 := rfl

section StateLemmas

variable [DecidableEq K]

theorem foldl_BufferEntryInsert_shards (batch : List (EntryT K V)) (st : GlobalState K V)
    (dst j : Nat) :
    (batch.foldl (fun s e => Hashmap.BufferEntryInsert s dst e) st).shards j =
      if j = dst then LocalHashmap.insFold (st.shards dst) batch else st.shards j := by
  induction batch generalizing st with
  | nil => by_cases h : j = dst <;> simp [h]
  | cons e rest ih =>
    rw [List.foldl_cons, ih]
    by_cases h : j = dst <;> simp [h, Hashmap.BufferEntryInsert]

theorem foldl_BufferEntryInsert_buffers (batch : List (EntryT K V)) (st : GlobalState K V)
    (dst : Nat) :
    (batch.foldl (fun s e => Hashmap.BufferEntryInsert s dst e) st).buffers = st.buffers := by
  induction batch generalizing st with
  | nil => rfl
  | cons e rest ih => rw [List.foldl_cons, ih]; rfl

theorem shards_shipBuffer (st : GlobalState K V) (src dst j : Nat) :
    (BuffersVector.shipBuffer st src dst).shards j =
      if j = dst then LocalHashmap.insFold (st.shards dst) (st.buffers src dst)
      else st.shards j := by
  unfold BuffersVector.shipBuffer
  rw [shards_setBuf, foldl_BufferEntryInsert_shards]

theorem buffers_shipBuffer (st : GlobalState K V) (src dst s2 d2 : Nat) :
    (BuffersVector.shipBuffer st src dst).buffers s2 d2 =
      if s2 = src ∧ d2 = dst then [] else st.buffers s2 d2 := by
  unfold BuffersVector.shipBuffer
  rw [buffers_setBuf, foldl_BufferEntryInsert_buffers]

theorem buffers_foldl_ship (l : List Nat) (st : GlobalState K V) (src s2 d2 : Nat) :
    ((l.foldl (fun s dst => BuffersVector.shipBuffer s src dst) st)).buffers s2 d2 =
      if s2 = src ∧ d2 ∈ l then [] else st.buffers s2 d2 := by
  induction l generalizing st with
  | nil => simp
  | cons dh rest ih =>
    rw [List.foldl_cons, ih, buffers_shipBuffer]
    by_cases hs : s2 = src
    · by_cases h1 : d2 ∈ rest
      · simp [hs, h1]
      · by_cases h2 : d2 = dh <;> simp [hs, h1, h2]
    · simp [hs]

theorem shards_foldl_ship (l : List Nat) (hl : l.Nodup) (st : GlobalState K V) (src j : Nat) :
    ((l.foldl (fun s dst => BuffersVector.shipBuffer s src dst) st)).shards j =
      if j ∈ l then LocalHashmap.insFold (st.shards j) (st.buffers src j)
      else st.shards j := by
  induction l generalizing st with
  | nil => simp
  | cons dh rest ih =>
    rw [List.foldl_cons, ih (List.nodup_cons.mp hl).2]
    have hdh : dh ∉ rest := (List.nodup_cons.mp hl).1
    by_cases h1 : j ∈ rest
    · have hne : j ≠ dh := fun hc => hdh (hc ▸ h1)
      rw [shards_shipBuffer, buffers_shipBuffer]
      simp [h1, hne, List.mem_cons]
    · by_cases h2 : j = dh
      · subst h2
        rw [if_neg h1, shards_shipBuffer]
        simp [List.mem_cons]
      · rw [if_neg h1, shards_shipBuffer]
        simp [h1, h2, List.mem_cons]

theorem buffers_FlushAll (N : Nat) (st : GlobalState K V) (src s2 d2 : Nat) :
    (BuffersVector.FlushAll N st src).buffers s2 d2 =
      if s2 = src ∧ d2 < N then [] else st.buffers s2 d2 := by
  unfold BuffersVector.FlushAll
  rw [buffers_foldl_ship]
  simp [List.mem_range]

theorem shards_FlushAll (N : Nat) (st : GlobalState K V) (src j : Nat) :
    (BuffersVector.FlushAll N st src).shards j =
      if j < N then LocalHashmap.insFold (st.shards j) (st.buffers src j)
      else st.shards j := by
  unfold BuffersVector.FlushAll
  rw [shards_foldl_ship _ (List.nodup_range N)]
  simp [List.mem_range]

theorem buffers_foldl_FlushAll (N : Nat) (l : List Nat) (st : GlobalState K V) (s d : Nat) :
    ((l.foldl (fun s2 L => BuffersVector.FlushAll N s2 L) st)).buffers s d =
      if s ∈ l ∧ d < N then [] else st.buffers s d := by
  induction l generalizing st with
  | nil => simp
  | cons Lh rest ih =>
    rw [List.foldl_cons, ih, buffers_FlushAll]
    by_cases hd : d < N
    · by_cases h1 : s ∈ rest
      · simp [hd, h1]
      · by_cases h2 : s = Lh <;> simp [hd, h1, h2]
    · simp [hd]

theorem buffers_WaitForBufferedInsert (N : Nat) (st : GlobalState K V) (s d : Nat) :
    (Hashmap.WaitForBufferedInsert N st).buffers s d =
      if s < N ∧ d < N then [] else st.buffers s d := by
  unfold Hashmap.WaitForBufferedInsert
  rw [buffers_foldl_FlushAll]
  simp [List.mem_range]

end StateLemmas

section FacadeLemmas

variable [DecidableEq K]
variable (hash : K → Nat → Nat) (N T : Nat)

theorem owner_lt (hN : 0 < N) (k : K) : owner hash N k < N :=
  Nat.mod_lt _ hN

theorem Insert_eq (st : GlobalState K V) (here : Nat) (k : K) (v : V) :
    Hashmap.Insert hash N st here k v =
      setShard st (owner hash N k) ((st.shards (owner hash N k)).Insert k v) := by
  simp only [Hashmap.Insert]
  by_cases h : owner hash N k = here <;> simp [h]

theorem AsyncInsert_eq_Insert (st : GlobalState K V) (here : Nat) (k : K) (v : V) :
    Hashmap.AsyncInsert hash N st here k v = Hashmap.Insert hash N st here k v := rfl

theorem Erase_eq (st : GlobalState K V) (here : Nat) (k : K) :
    Hashmap.Erase hash N st here k =
      setShard st (owner hash N k) ((st.shards (owner hash N k)).Erase k) := by
  simp only [Hashmap.Erase]
  by_cases h : owner hash N k = here <;> simp [h]

theorem AsyncErase_eq_Erase (st : GlobalState K V) (here : Nat) (k : K) :
    Hashmap.AsyncErase hash N st here k = Hashmap.Erase hash N st here k := rfl

theorem Apply_eq (st : GlobalState K V) (here : Nat) (k : K) (f : K → V → V) :
    Hashmap.Apply hash N st here k f =
      setShard st (owner hash N k) ((st.shards (owner hash N k)).Apply k f) := by
  simp only [Hashmap.Apply]
  by_cases h : owner hash N k = here <;> simp [h]

theorem AsyncApply_eq_Apply (st : GlobalState K V) (here : Nat) (k : K) (f : K → V → V) :
    Hashmap.AsyncApply hash N st here k f = Hashmap.Apply hash N st here k f := rfl

theorem BufferedAsyncInsert_eq_BufferedInsert (st : GlobalState K V) (here : Nat) (k : K) (v : V) :
    Hashmap.BufferedAsyncInsert hash N T st here k v =
      Hashmap.BufferedInsert hash N T st here k v := rfl

theorem Lookup_not_contains (m : LocalHashmap K V) (k : K) (cell : V)
    (h : LocalHashmap.containsKey m k = false) : m.Lookup k cell = (false, cell) := by
  unfold LocalHashmap.Lookup
  cases hc : LocalHashmap.lookupKey m k with
  | some v => simp [LocalHashmap.containsKey, hc] at h
  | none => rfl

theorem Lookup_found (m : LocalHashmap K V) (k : K) (cell : V)
    (h : LocalHashmap.containsKey m k = true) : (m.Lookup k cell).1 = true := by
  unfold LocalHashmap.Lookup
  cases hc : LocalHashmap.lookupKey m k with
  | some v => rfl
  | none => simp [LocalHashmap.containsKey, hc] at h

theorem Lookup_eq (st : GlobalState K V) (here : Nat) (k : K) (res junk : V) :
    Hashmap.Lookup hash N st here k res junk = (st.shards (owner hash N k)).Lookup k res := by
  unfold Hashmap.Lookup Hashmap.lookupBranches
  by_cases h : owner hash N k = here
  · simp [h]
  · simp only [if_neg h]
    cases hc : LocalHashmap.lookupKey (st.shards (owner hash N k)) k with
    | some v => simp [LocalHashmap.LookupRes, LocalHashmap.Lookup, hc]
    | none => simp [LocalHashmap.LookupRes, LocalHashmap.Lookup, hc]

theorem lookupBranches_isSome (st : GlobalState K V) (here : Nat) (k : K) (res junk : V) :
    (Hashmap.lookupBranches hash N st here k res junk).isSome = true := by
  unfold Hashmap.lookupBranches
  by_cases h : owner hash N k = here
  · simp [h]
  · simp only [if_neg h]
    by_cases h2 : (LocalHashmap.LookupRes (st.shards (owner hash N k)) k
        (LookupResult.mk false junk)).found <;> simp [h2]

theorem AsyncLookup_remote (st : GlobalState K V) (here : Nat) (k : K)
    (res : LookupResult V) (junk : V) (h : owner hash N k ≠ here) :
    Hashmap.AsyncLookup hash N st here k res junk =
      LookupResult.mk (LocalHashmap.containsKey (st.shards (owner hash N k)) k)
        ((LocalHashmap.lookupKey (st.shards (owner hash N k)) k).getD junk) := by
  unfold Hashmap.AsyncLookup
  simp only [if_neg h]
  cases hc : LocalHashmap.lookupKey (st.shards (owner hash N k)) k with
  | some v => simp [LocalHashmap.LookupRes, LocalHashmap.containsKey, hc]
  | none => simp [LocalHashmap.LookupRes, LocalHashmap.containsKey, hc]

theorem shards_BufferedInsert_ne (st : GlobalState K V) (here : Nat) (k : K) (v : V)
    (j : Nat) (hj : j ≠ owner hash N k) :
    (Hashmap.BufferedInsert hash N T st here k v).shards j = st.shards j := by
  unfold Hashmap.BufferedInsert
  by_cases h : owner hash N k = here
  · have hj2 : j ≠ here := fun hc => hj (hc.trans h.symm)
    simp [h, hj2]
  · simp only [if_neg h]
    unfold BuffersVector.Insert
    by_cases h2 : (st.buffers here (owner hash N k)).length < T
    · simp [h2]
    · simp only [if_neg h2, shards_setBuf]
      rw [shards_shipBuffer, if_neg hj]

theorem buffers_BufferedInsert_ne (st : GlobalState K V) (here : Nat) (k : K) (v : V)
    (s d : Nat) (hsd : ¬(s = here ∧ d = owner hash N k)) :
    (Hashmap.BufferedInsert hash N T st here k v).buffers s d = st.buffers s d := by
  unfold Hashmap.BufferedInsert
  by_cases h : owner hash N k = here
  · simp [h]
  · simp only [if_neg h]
    unfold BuffersVector.Insert
    by_cases h2 : (st.buffers here (owner hash N k)).length < T
    · simp [h2, hsd]
    · simp only [if_neg h2, buffers_setBuf]
      rw [if_neg hsd, buffers_shipBuffer, if_neg hsd]

end FacadeLemmas

section InvLemmas

variable [DecidableEq K]
variable (hash : K → Nat → Nat) (N T : Nat)

@[simp]
theorem runIns_nil (st : GlobalState K V) : runIns hash N T [] st = st := rfl

@[simp]
theorem runIns_cons (op : InsOp K V) (rest : List (InsOp K V)) (st : GlobalState K V) :
    runIns hash N T (op :: rest) st = runIns hash N T rest (stepIns hash N T st op) := rfl

@[simp]
theorem runBufIns_nil (st : GlobalState K V) : runBufIns hash N T [] st = st := rfl

@[simp]
theorem runBufIns_cons (o : Nat × K × V) (rest : List (Nat × K × V)) (st : GlobalState K V) :
    runBufIns hash N T (o :: rest) st =
      runBufIns hash N T rest (Hashmap.BufferedInsert hash N T st o.1 o.2.1 o.2.2) := rfl

theorem contains_owner_of_Inv {st : GlobalState K V} {S : List K}
    (h : Inv hash N st S) {i : Nat} {k : K}
    (hc : LocalHashmap.containsKey (st.shards i) k = true) : owner hash N k = i := by
  rcases List.mem_map.mp ((LocalHashmap.containsKey_iff_mem_keysOf _ _).mp hc) with ⟨e, he, hek⟩
  exact hek ▸ h.shardOwner i e he

theorem Inv_congS {st : GlobalState K V} {S S2 : List K}
    (h : Inv hash N st S) (hS : ∀ k, k ∈ S ↔ k ∈ S2) : Inv hash N st S2 :=
  ⟨h.shardOwner, h.shardNodup, h.bufOwner, h.bufSrcHigh, fun k => (h.mem k).trans (hS k)⟩

theorem Inv_empty : Inv hash N (emptyState K V) ([] : List K) where
  shardOwner := fun _ e he => absurd he (List.not_mem_nil e)
  shardNodup := fun _ => List.nodup_nil
  bufOwner := fun _ _ e he => absurd he (List.not_mem_nil e)
  bufSrcHigh := fun _ _ _ => rfl
  mem := fun k => by
    simp [globalHas, emptyState, LocalHashmap.containsKey, LocalHashmap.lookupKey]

theorem Inv_shipBuffer {st : GlobalState K V} {S : List K} (src dst : Nat)
    (h : Inv hash N st S) : Inv hash N (BuffersVector.shipBuffer st src dst) S := by
  constructor
  · intro i e he
    rw [shards_shipBuffer] at he
    by_cases hi : i = dst
    · rw [if_pos hi] at he
      rcases LocalHashmap.mem_insFold _ _ _ he with h1 | h1
      · exact hi ▸ h.shardOwner dst e h1
      · exact hi ▸ (h.bufOwner src dst e h1).1
    · rw [if_neg hi] at he
      exact h.shardOwner i e he
  · intro i
    rw [shards_shipBuffer]
    by_cases hi : i = dst
    · rw [if_pos hi]
      exact LocalHashmap.nodup_keysOf_insFold _ _ (h.shardNodup dst)
    · rw [if_neg hi]
      exact h.shardNodup i
  · intro s d e he
    rw [buffers_shipBuffer] at he
    by_cases hsd : s = src ∧ d = dst
    · rw [if_pos hsd] at he
      exact absurd he (List.not_mem_nil e)
    · rw [if_neg hsd] at he
      exact h.bufOwner s d e he
  · intro s d hs
    rw [buffers_shipBuffer]
    by_cases hsd : s = src ∧ d = dst
    · rw [if_pos hsd]
    · rw [if_neg hsd]
      exact h.bufSrcHigh s d hs
  · intro k
    rw [← h.mem k]
    constructor
    · rintro (⟨i, hc⟩ | ⟨s, d, hm⟩)
      · rw [shards_shipBuffer] at hc
        by_cases hi : i = dst
        · rw [if_pos hi] at hc
          rcases (LocalHashmap.containsKey_insFold _ _ _).mp hc with h1 | h1
          · exact Or.inl ⟨dst, h1⟩
          · exact Or.inr ⟨src, dst, h1⟩
        · rw [if_neg hi] at hc
          exact Or.inl ⟨i, hc⟩
      · rw [buffers_shipBuffer] at hm
        by_cases hsd : s = src ∧ d = dst
        · rw [if_pos hsd] at hm
          simp at hm
        · rw [if_neg hsd] at hm
          exact Or.inr ⟨s, d, hm⟩
    · rintro (⟨i, hc⟩ | ⟨s, d, hm⟩)
      · by_cases hi : i = dst
        · refine Or.inl ⟨dst, ?_⟩
          rw [shards_shipBuffer, if_pos rfl]
          exact (LocalHashmap.containsKey_insFold _ _ _).mpr (Or.inl (hi ▸ hc))
        · refine Or.inl ⟨i, ?_⟩
          rw [shards_shipBuffer, if_neg hi]
          exact hc
      · by_cases hsd : s = src ∧ d = dst
        · refine Or.inl ⟨dst, ?_⟩
          rw [shards_shipBuffer, if_pos rfl]
          refine (LocalHashmap.containsKey_insFold _ _ _).mpr (Or.inr ?_)
          rw [← hsd.1, ← hsd.2]
          exact hm
        · refine Or.inr ⟨s, d, ?_⟩
          rw [buffers_shipBuffer, if_neg hsd]
          exact hm

theorem Inv_foldl_ship {S : List K} (l : List Nat) (src : Nat) :
    ∀ st : GlobalState K V, Inv hash N st S →
      Inv hash N (l.foldl (fun s dst => BuffersVector.shipBuffer s src dst) st) S := by
  induction l with
  | nil => exact fun _ h => h
  | cons dh rest ih =>
    intro st h
    rw [List.foldl_cons]
    exact ih _ (Inv_shipBuffer hash N src dh h)

theorem Inv_FlushAll {st : GlobalState K V} {S : List K} (src : Nat)
    (h : Inv hash N st S) : Inv hash N (BuffersVector.FlushAll N st src) S :=
  Inv_foldl_ship hash N _ src st h

theorem Inv_Wait {st : GlobalState K V} {S : List K} (h : Inv hash N st S) :
    Inv hash N (Hashmap.WaitForBufferedInsert N st) S := by
  unfold Hashmap.WaitForBufferedInsert
  generalize List.range N = l
  induction l generalizing st with
  | nil => exact h
  | cons Lh rest ih =>
    rw [List.foldl_cons]
    exact ih (Inv_FlushAll hash N Lh h)

theorem buffers_Wait_empty {st : GlobalState K V} {S : List K} (hN : 0 < N)
    (h : Inv hash N st S) (s d : Nat) :
    (Hashmap.WaitForBufferedInsert N st).buffers s d = [] := by
  rw [buffers_WaitForBufferedInsert]
  by_cases hin : s < N ∧ d < N
  · rw [if_pos hin]
  · rw [if_neg hin]
    by_cases hs : s < N
    · have hd : ¬ d < N := fun hc => hin ⟨hs, hc⟩
      cases hb : st.buffers s d with
      | nil => rfl
      | cons e rest =>
        have ho := (h.bufOwner s d e (hb ▸ List.mem_cons_self e rest)).1
        exact absurd (ho ▸ owner_lt hash N hN e.key) hd
    · exact h.bufSrcHigh s d (Nat.le_of_not_lt hs)

theorem Inv_insertCore {st : GlobalState K V} {S : List K} (k : K) (v : V)
    (h : Inv hash N st S) :
    Inv hash N (setShard st (owner hash N k) ((st.shards (owner hash N k)).Insert k v))
      (k :: S) := by
  constructor
  · intro i e he
    rw [shards_setShard] at he
    by_cases hi : i = owner hash N k
    · rw [if_pos hi] at he
      rcases LocalHashmap.mem_Insert _ _ _ _ he with h1 | h1
      · subst h1
        exact hi.symm
      · exact h.shardOwner i e (hi ▸ h1)
    · rw [if_neg hi] at he
      exact h.shardOwner i e he
  · intro i
    rw [shards_setShard]
    by_cases hi : i = owner hash N k
    · rw [if_pos hi]
      exact LocalHashmap.nodup_keysOf_Insert _ _ _ (h.shardNodup _)
    · rw [if_neg hi]
      exact h.shardNodup i
  · intro s d e he
    exact h.bufOwner s d e he
  · intro s d hs
    exact h.bufSrcHigh s d hs
  · intro k2
    rw [List.mem_cons, ← h.mem k2]
    constructor
    · rintro (⟨i, hc⟩ | ⟨s, d, hm⟩)
      · rw [shards_setShard] at hc
        by_cases hi : i = owner hash N k
        · rw [if_pos hi] at hc
          rcases (LocalHashmap.containsKey_Insert _ _ _ _).mp hc with h1 | h1
          · exact Or.inl h1
          · exact Or.inr (Or.inl ⟨owner hash N k, h1⟩)
        · rw [if_neg hi] at hc
          exact Or.inr (Or.inl ⟨i, hc⟩)
      · exact Or.inr (Or.inr ⟨s, d, hm⟩)
    · rintro (h1 | (⟨i, hc⟩ | ⟨s, d, hm⟩))
      · refine Or.inl ⟨owner hash N k, ?_⟩
        rw [shards_setShard, if_pos rfl]
        exact (LocalHashmap.containsKey_Insert _ _ _ _).mpr (Or.inl h1)
      · by_cases hi : i = owner hash N k
        · refine Or.inl ⟨owner hash N k, ?_⟩
          rw [shards_setShard, if_pos rfl]
          exact (LocalHashmap.containsKey_Insert _ _ _ _).mpr (Or.inr (hi ▸ hc))
        · refine Or.inl ⟨i, ?_⟩
          rw [shards_setShard, if_neg hi]
          exact hc
      · exact Or.inr ⟨s, d, hm⟩

theorem Inv_buffersInsert {st : GlobalState K V} {S : List K} (here : Nat) (k : K) (v : V)
    (hne : owner hash N k ≠ here) (hlt : here < N) (h : Inv hash N st S) :
    Inv hash N (BuffersVector.Insert T st (EntryT.mk k v) here (owner hash N k)) (k :: S) := by
  unfold BuffersVector.Insert
  by_cases hb : (st.buffers here (owner hash N k)).length < T
  · rw [if_pos hb]
    constructor
    · intro i e he
      exact h.shardOwner i e he
    · intro i
      exact h.shardNodup i
    · intro s d e he
      rw [buffers_setBuf] at he
      by_cases hsd : s = here ∧ d = owner hash N k
      · rw [if_pos hsd] at he
        rcases List.mem_append.mp he with h1 | h1
        · have := h.bufOwner here (owner hash N k) e h1
          exact ⟨hsd.2 ▸ this.1, hsd.1 ▸ hsd.2 ▸ this.2⟩
        · have he2 : e = EntryT.mk k v := by simpa using h1
          subst he2
          exact ⟨hsd.2.symm, hsd.2 ▸ hsd.1 ▸ hne⟩
      · rw [if_neg hsd] at he
        exact h.bufOwner s d e he
    · intro s d hs
      rw [buffers_setBuf]
      have hsd : ¬(s = here ∧ d = owner hash N k) := by
        rintro ⟨rfl, -⟩
        exact absurd hlt (Nat.not_lt_of_le hs)
      rw [if_neg hsd]
      exact h.bufSrcHigh s d hs
    · intro k2
      rw [List.mem_cons, ← h.mem k2]
      constructor
      · rintro (⟨i, hc⟩ | ⟨s, d, hm⟩)
        · exact Or.inr (Or.inl ⟨i, hc⟩)
        · rw [buffers_setBuf] at hm
          by_cases hsd : s = here ∧ d = owner hash N k
          · rw [if_pos hsd] at hm
            rw [List.map_append, List.mem_append] at hm
            rcases hm with h1 | h1
            · exact Or.inr (Or.inr ⟨here, owner hash N k, h1⟩)
            · exact Or.inl (by simpa using h1)
          · rw [if_neg hsd] at hm
            exact Or.inr (Or.inr ⟨s, d, hm⟩)
      · rintro (h1 | (⟨i, hc⟩ | ⟨s, d, hm⟩))
        · refine Or.inr ⟨here, owner hash N k, ?_⟩
          rw [buffers_setBuf, if_pos ⟨rfl, rfl⟩, List.map_append, List.mem_append]
          exact Or.inr (by simp [h1])
        · exact Or.inl ⟨i, hc⟩
        · by_cases hsd : s = here ∧ d = owner hash N k
          · refine Or.inr ⟨here, owner hash N k, ?_⟩
            rw [buffers_setBuf, if_pos ⟨rfl, rfl⟩, List.map_append, List.mem_append]
            exact Or.inl (hsd.1 ▸ hsd.2 ▸ hm)
          · refine Or.inr ⟨s, d, ?_⟩
            rw [buffers_setBuf, if_neg hsd]
            exact hm
  · rw [if_neg hb]
    have h1 : Inv hash N (BuffersVector.shipBuffer st here (owner hash N k)) S :=
      Inv_shipBuffer hash N here (owner hash N k) h
    constructor
    · intro i e he
      exact h1.shardOwner i e he
    · intro i
      exact h1.shardNodup i
    · intro s d e he
      rw [buffers_setBuf] at he
      by_cases hsd : s = here ∧ d = owner hash N k
      · rw [if_pos hsd] at he
        have he2 : e = EntryT.mk k v := by simpa using he
        subst he2
        exact ⟨hsd.2.symm, hsd.2 ▸ hsd.1 ▸ hne⟩
      · rw [if_neg hsd] at he
        exact h1.bufOwner s d e he
    · intro s d hs
      rw [buffers_setBuf]
      have hsd : ¬(s = here ∧ d = owner hash N k) := by
        rintro ⟨rfl, -⟩
        exact absurd hlt (Nat.not_lt_of_le hs)
      rw [if_neg hsd]
      exact h1.bufSrcHigh s d hs
    · intro k2
      rw [List.mem_cons, ← h1.mem k2]
      constructor
      · rintro (⟨i, hc⟩ | ⟨s, d, hm⟩)
        · exact Or.inr (Or.inl ⟨i, hc⟩)
        · rw [buffers_setBuf] at hm
          by_cases hsd : s = here ∧ d = owner hash N k
          · rw [if_pos hsd] at hm
            exact Or.inl (by simpa using hm)
          · rw [if_neg hsd] at hm
            exact Or.inr (Or.inr ⟨s, d, hm⟩)
      · rintro (h2 | (⟨i, hc⟩ | ⟨s, d, hm⟩))
        · refine Or.inr ⟨here, owner hash N k, ?_⟩
          rw [buffers_setBuf, if_pos ⟨rfl, rfl⟩]
          simp [h2]
        · exact Or.inl ⟨i, hc⟩
        · by_cases hsd : s = here ∧ d = owner hash N k
          · exfalso
            rw [buffers_shipBuffer, if_pos hsd] at hm
            simp at hm
          · refine Or.inr ⟨s, d, ?_⟩
            rw [buffers_setBuf, if_neg hsd]
            exact hm

theorem Inv_BufferedInsert {st : GlobalState K V} {S : List K} (here : Nat) (k : K) (v : V)
    (hlt : here < N) (h : Inv hash N st S) :
    Inv hash N (Hashmap.BufferedInsert hash N T st here k v) (k :: S) := by
  unfold Hashmap.BufferedInsert
  by_cases hloc : owner hash N k = here
  · rw [if_pos hloc]
    have h2 := Inv_insertCore hash N k v h
    rwa [hloc] at h2
  · rw [if_neg hloc]
    exact Inv_buffersInsert hash N T here k v hloc hlt h

theorem Inv_stepIns {st : GlobalState K V} {S : List K} (op : InsOp K V)
    (hlt : op.here < N) (h : Inv hash N st S) :
    Inv hash N (stepIns hash N T st op) (op.key :: S) := by
  cases op with
  | insert h1 k v =>
    have h2 := Inv_insertCore hash N k v h
    rw [← Insert_eq hash N st h1 k v] at h2
    exact h2
  | asyncInsert h1 k v =>
    have h2 := Inv_insertCore hash N k v h
    rw [← Insert_eq hash N st h1 k v, ← AsyncInsert_eq_Insert hash N st h1 k v] at h2
    exact h2
  | bufferedInsert h1 k v =>
    exact Inv_BufferedInsert hash N T h1 k v hlt h
  | bufferedAsyncInsert h1 k v =>
    have h2 := Inv_BufferedInsert hash N T h1 k v hlt h
    rw [← BufferedAsyncInsert_eq_BufferedInsert hash N T st h1 k v] at h2
    exact h2

theorem Inv_runIns (ops : List (InsOp K V)) :
    ∀ st : GlobalState K V, ∀ S : List K, (∀ op ∈ ops, op.here < N) → Inv hash N st S →
      Inv hash N (runIns hash N T ops st) (ops.map InsOp.key ++ S) := by
  induction ops with
  | nil =>
    intro st S _ h
    simpa using h
  | cons op rest ih =>
    intro st S hlt h
    rw [runIns_cons]
    have h1 := Inv_stepIns hash N T op (hlt op (List.mem_cons_self op rest)) h
    have h2 := ih _ _ (fun o ho => hlt o (List.mem_cons_of_mem op ho)) h1
    refine Inv_congS hash N h2 (fun k => ?_)
    simp only [List.map_cons, List.mem_append, List.mem_cons]
    tauto

theorem Inv_runBufIns (ops : List (Nat × K × V)) :
    ∀ st : GlobalState K V, ∀ S : List K, (∀ o ∈ ops, o.1 < N) → Inv hash N st S →
      Inv hash N (runBufIns hash N T ops st) (ops.map (fun o => o.2.1) ++ S) := by
  induction ops with
  | nil =>
    intro st S _ h
    simpa using h
  | cons o rest ih =>
    intro st S hlt h
    rw [runBufIns_cons]
    have h1 := Inv_BufferedInsert hash N T o.1 o.2.1 o.2.2
      (hlt o (List.mem_cons_self o rest)) h
    have h2 := ih _ _ (fun o2 ho => hlt o2 (List.mem_cons_of_mem o ho)) h1
    refine Inv_congS hash N h2 (fun k => ?_)
    simp only [List.map_cons, List.mem_append, List.mem_cons]
    tauto

theorem runBufIns_no_flush (ops : List (Nat × K × V)) :
    ∀ st : GlobalState K V,
      (∀ s d, (st.buffers s d).length + ops.length ≤ T) →
      ∀ j k2, LocalHashmap.containsKey ((runBufIns hash N T ops st).shards j) k2 = true →
        LocalHashmap.containsKey (st.shards j) k2 = true ∨
          ∃ o ∈ ops, o.2.1 = k2 ∧ o.1 = owner hash N o.2.1 := by
  induction ops with
  | nil =>
    intro st _ j k2 hc
    exact Or.inl hc
  | cons o rest ih =>
    intro st hlen j k2 hc
    rw [runBufIns_cons] at hc
    obtain ⟨h1, k, v⟩ := o
    by_cases hloc : owner hash N k = h1
    · have hbufeq : (Hashmap.BufferedInsert hash N T st h1 k v).buffers = st.buffers := by
        unfold Hashmap.BufferedInsert
        rw [if_pos hloc]
        rfl
      have hbuf : ∀ s d,
          ((Hashmap.BufferedInsert hash N T st h1 k v).buffers s d).length + rest.length ≤ T := by
        intro s d
        rw [hbufeq]
        have h2 := hlen s d
        rw [List.length_cons] at h2
        omega
      rcases ih _ hbuf j k2 hc with h2 | h2
      · unfold Hashmap.BufferedInsert at h2
        rw [if_pos hloc, shards_setShard] at h2
        by_cases hj : j = h1
        · rw [if_pos hj] at h2
          rcases (LocalHashmap.containsKey_Insert _ _ _ _).mp h2 with h3 | h3
          · exact Or.inr ⟨(h1, k, v), List.mem_cons_self _ _, h3.symm, hloc.symm⟩
          · exact Or.inl (hj ▸ h3)
        · rw [if_neg hj] at h2
          exact Or.inl h2
      · rcases h2 with ⟨o2, ho2, hp⟩
        exact Or.inr ⟨o2, List.mem_cons_of_mem _ ho2, hp⟩
    · have hblen : (st.buffers h1 (owner hash N k)).length < T := by
        have h2 := hlen h1 (owner hash N k)
        rw [List.length_cons] at h2
        omega
      have hshards : (Hashmap.BufferedInsert hash N T st h1 k v).shards = st.shards := by
        unfold Hashmap.BufferedInsert BuffersVector.Insert
        rw [if_neg hloc, if_pos hblen]
        rfl
      have hbufeq : ∀ s d, (Hashmap.BufferedInsert hash N T st h1 k v).buffers s d =
          if s = h1 ∧ d = owner hash N k
          then st.buffers h1 (owner hash N k) ++ [EntryT.mk k v]
          else st.buffers s d := by
        intro s d
        unfold Hashmap.BufferedInsert BuffersVector.Insert
        rw [if_neg hloc, if_pos hblen, buffers_setBuf]
      have hbuf : ∀ s d,
          ((Hashmap.BufferedInsert hash N T st h1 k v).buffers s d).length + rest.length ≤ T := by
        intro s d
        rw [hbufeq]
        by_cases hsd : s = h1 ∧ d = owner hash N k
        · rw [if_pos hsd, List.length_append]
          have h2 := hlen h1 (owner hash N k)
          rw [List.length_cons] at h2
          simp only [List.length_cons, List.length_nil]
          omega
        · rw [if_neg hsd]
          have h2 := hlen s d
          rw [List.length_cons] at h2
          omega
      rcases ih _ hbuf j k2 hc with h2 | h2
      · rw [hshards] at h2
        exact Or.inl h2
      · rcases h2 with ⟨o2, ho2, hp⟩
        exact Or.inr ⟨o2, List.mem_cons_of_mem _ ho2, hp⟩

theorem foldl_if_add (here : Nat) (f : Nat → Nat) (l : List Nat) :
    ∀ a : Nat, l.foldl (fun acc t => if t ≠ here then acc + f t else acc) a =
      a + ((l.filter fun t => t ≠ here).map f).sum := by
  induction l with
  | nil =>
    intro a
    simp
  | cons t rest ih =>
    intro a
    rw [List.foldl_cons]
    by_cases ht : t ≠ here
    · rw [if_pos ht, ih, List.filter_cons_of_pos (by simpa using ht), List.map_cons,
        List.sum_cons]
      omega
    · rw [if_neg ht, ih, List.filter_cons_of_neg (by simpa using ht)]

theorem sum_split (here : Nat) (f : Nat → Nat) (l : List Nat)
    (hl : l.Nodup) (hm : here ∈ l) :
    (l.map f).sum = f here + ((l.filter fun t => t ≠ here).map f).sum := by
  induction l with
  | nil => cases hm
  | cons t rest ih =>
    rcases List.mem_cons.mp hm with h1 | h1
    · subst h1
      rw [List.filter_cons_of_neg (by simp)]
      have hrest : rest.filter (fun x => x ≠ here) = rest := by
        rw [List.filter_eq_self]
        intro a ha
        simp only [decide_eq_true_eq]
        exact fun hc => (List.nodup_cons.mp hl).1 (hc ▸ ha)
      rw [hrest, List.map_cons, List.sum_cons]
    · have ht : t ≠ here := fun hc => (List.nodup_cons.mp hl).1 (hc ▸ h1)
      rw [List.filter_cons_of_pos (by simpa using ht), List.map_cons, List.map_cons,
        List.sum_cons, List.sum_cons, ih (List.nodup_cons.mp hl).2 h1]
      omega

theorem Size_eq_sum (st : GlobalState K V) (here : Nat) (hh : here < N) :
    Hashmap.Size N st here = ((List.range N).map fun i => (st.shards i).length).sum := by
  unfold Hashmap.Size
  rw [foldl_if_add, sum_split here (fun i => (st.shards i).length) (List.range N)
    (List.nodup_range N) (List.mem_range.mpr hh)]

theorem Size_distinct {st : GlobalState K V} {S : List K} (hN : 0 < N)
    (h : Inv hash N st S) (hbuf : ∀ s d, st.buffers s d = []) (here : Nat) (hh : here < N) :
    Hashmap.Size N st here = S.dedup.length := by
  rw [Size_eq_sum N st here hh]
  have hlen : ((List.range N).map fun i => (st.shards i).length).sum =
      ((List.range N).map fun i => LocalHashmap.keysOf (st.shards i)).flatten.length := by
    rw [List.length_flatten, List.map_map]
    congr 1
    refine List.map_congr_left (fun i _ => ?_)
    simp [LocalHashmap.keysOf]
  have hnd : ((List.range N).map fun i => LocalHashmap.keysOf (st.shards i)).flatten.Nodup := by
    rw [List.nodup_flatten]
    constructor
    · intro l hl
      rcases List.mem_map.mp hl with ⟨i, _, rfl⟩
      exact h.shardNodup i
    · rw [List.pairwise_map]
      refine List.Pairwise.imp ?_ (List.nodup_range N)
      intro i j hij k hki hkj
      have h1 := contains_owner_of_Inv hash N h
        ((LocalHashmap.containsKey_iff_mem_keysOf _ _).mpr hki)
      have h2 := contains_owner_of_Inv hash N h
        ((LocalHashmap.containsKey_iff_mem_keysOf _ _).mpr hkj)
      exact hij (h1 ▸ h2)
  have hmem : ∀ k, k ∈ ((List.range N).map fun i => LocalHashmap.keysOf (st.shards i)).flatten
      ↔ k ∈ S := by
    intro k
    rw [List.mem_flatten]
    constructor
    · rintro ⟨l, hl, hk⟩
      rcases List.mem_map.mp hl with ⟨i, _, rfl⟩
      exact (h.mem k).mp (Or.inl ⟨i, (LocalHashmap.containsKey_iff_mem_keysOf _ _).mpr hk⟩)
    · intro hk
      rcases (h.mem k).mpr hk with ⟨i, hc⟩ | ⟨s, d, hm⟩
      · have hi : owner hash N k = i := contains_owner_of_Inv hash N h hc
        refine ⟨LocalHashmap.keysOf (st.shards i), List.mem_map_of_mem _
          (List.mem_range.mpr (hi ▸ owner_lt hash N hN k)),
          (LocalHashmap.containsKey_iff_mem_keysOf _ _).mp hc⟩
      · rw [hbuf s d] at hm
        simp at hm
  rw [hlen]
  have h1 : ((List.range N).map fun i => LocalHashmap.keysOf (st.shards i)).flatten.toFinset
      = S.toFinset :=
    Finset.ext fun k => by rw [List.mem_toFinset, List.mem_toFinset, hmem]
  calc ((List.range N).map fun i => LocalHashmap.keysOf (st.shards i)).flatten.length
      = ((List.range N).map fun i => LocalHashmap.keysOf (st.shards i)).flatten.toFinset.card :=
        (List.toFinset_card_of_nodup hnd).symm
    _ = S.toFinset.card := by rw [h1]
    _ = S.dedup.length := List.card_toFinset S

theorem contains_at_owner_after_Wait {st : GlobalState K V} {S : List K} (hN : 0 < N)
    (h : Inv hash N st S) (k : K) (hk : k ∈ S) :
    LocalHashmap.containsKey
      ((Hashmap.WaitForBufferedInsert N st).shards (owner hash N k)) k = true := by
  have hW := Inv_Wait hash N h
  rcases (hW.mem k).mpr hk with ⟨i, hc⟩ | ⟨s, d, hm⟩
  · have hi := contains_owner_of_Inv hash N hW hc
    rwa [← hi] at hc
  · rw [buffers_Wait_empty hash N hN h s d] at hm
    simp at hm

theorem AsyncLookup_found_eq (st : GlobalState K V) (here : Nat) (k : K)
    (res : LookupResult V) (junk : V) :
    (Hashmap.AsyncLookup hash N st here k res junk).found =
      LocalHashmap.containsKey (st.shards (owner hash N k)) k := by
  unfold Hashmap.AsyncLookup
  by_cases h : owner hash N k = here
  · rw [if_pos h, h]
    cases hc : LocalHashmap.lookupKey (st.shards here) k <;>
      simp [LocalHashmap.LookupRes, LocalHashmap.containsKey, hc]
  · rw [if_neg h]
    cases hc : LocalHashmap.lookupKey (st.shards (owner hash N k)) k <;>
      simp [LocalHashmap.LookupRes, LocalHashmap.containsKey, hc]

theorem bufRemote_shipBuffer {st : GlobalState K V} (src dst : Nat)
    (h : bufRemote hash N st) : bufRemote hash N (BuffersVector.shipBuffer st src dst) := by
  intro s d e he
  rw [buffers_shipBuffer] at he
  by_cases hsd : s = src ∧ d = dst
  · rw [if_pos hsd] at he
    exact absurd he (List.not_mem_nil e)
  · rw [if_neg hsd] at he
    exact h s d e he

theorem bufRemote_BufferedInsert {st : GlobalState K V} (here : Nat) (k : K) (v : V)
    (h : bufRemote hash N st) :
    bufRemote hash N (Hashmap.BufferedInsert hash N T st here k v) := by
  unfold Hashmap.BufferedInsert
  by_cases hloc : owner hash N k = here
  · rw [if_pos hloc]
    exact h
  · rw [if_neg hloc]
    unfold BuffersVector.Insert
    by_cases hb : (st.buffers here (owner hash N k)).length < T
    · rw [if_pos hb]
      intro s d e he
      rw [buffers_setBuf] at he
      by_cases hsd : s = here ∧ d = owner hash N k
      · rw [if_pos hsd] at he
        rcases List.mem_append.mp he with h1 | h1
        · have h2 := h here (owner hash N k) e h1
          exact ⟨hsd.2 ▸ h2.1, hsd.1 ▸ hsd.2 ▸ h2.2⟩
        · have he2 : e = EntryT.mk k v := by simpa using h1
          subst he2
          exact ⟨hsd.2.symm, hsd.2 ▸ hsd.1 ▸ hloc⟩
      · rw [if_neg hsd] at he
        exact h s d e he
    · rw [if_neg hb]
      intro s d e he
      rw [buffers_setBuf] at he
      by_cases hsd : s = here ∧ d = owner hash N k
      · rw [if_pos hsd] at he
        have he2 : e = EntryT.mk k v := by simpa using he
        subst he2
        exact ⟨hsd.2.symm, hsd.2 ▸ hsd.1 ▸ hloc⟩
      · rw [if_neg hsd] at he
        exact bufRemote_shipBuffer hash N here (owner hash N k) h s d e he

theorem bufRemote_stepIns {st : GlobalState K V} (op : InsOp K V)
    (h : bufRemote hash N st) : bufRemote hash N (stepIns hash N T st op) := by
  cases op with
  | insert h1 k v =>
    intro s d e he
    rw [show stepIns hash N T st (InsOp.insert h1 k v) = Hashmap.Insert hash N st h1 k v
      from rfl, Insert_eq] at he
    exact h s d e he
  | asyncInsert h1 k v =>
    intro s d e he
    rw [show stepIns hash N T st (InsOp.asyncInsert h1 k v) = Hashmap.AsyncInsert hash N st h1 k v
      from rfl, AsyncInsert_eq_Insert, Insert_eq] at he
    exact h s d e he
  | bufferedInsert h1 k v =>
    exact bufRemote_BufferedInsert hash N T h1 k v h
  | bufferedAsyncInsert h1 k v =>
    have h2 := bufRemote_BufferedInsert hash N T h1 k v h
    rwa [← BufferedAsyncInsert_eq_BufferedInsert hash N T st h1 k v] at h2

theorem bufRemote_runIns (ops : List (InsOp K V)) :
    ∀ st : GlobalState K V, bufRemote hash N st →
      bufRemote hash N (runIns hash N T ops st) := by
  induction ops with
  | nil => exact fun _ h => h
  | cons op rest ih =>
    intro st h
    rw [runIns_cons]
    exact ih _ (bufRemote_stepIns hash N T op h)

end InvLemmas

section Claims

variable [DecidableEq K]

/-- Claim C1: every facade operation (Insert, AsyncInsert, BufferedInsert,
BufferedAsyncInsert, Erase, AsyncErase, Lookup, AsyncLookup, Apply,
AsyncApply) routes a key k to the same owning locality
owner(k) = hash(k, 0) mod N, regardless of the calling locality: each
routed mutator takes effect exactly at the shard of owner(k), the buffered
inserts touch only the shard of owner(k) and the outbound buffer slot
(caller, owner(k)), and the lookups are answered from the shard of
owner(k). Consequently, along any erase-free insertion trace from a fresh
instance, a shard containing k can only be the one at owner(k) (before and
after finalization), and after WaitForBufferedInsert every inserted key is
resident in the shard of its owner. -/
theorem c1_routing_to_owner (hash : K → Nat → Nat) (N T : Nat) :
    (∀ (st : GlobalState K V) (here : Nat) (k : K) (v : V),
      Hashmap.Insert hash N st here k v =
        setShard st (owner hash N k) ((st.shards (owner hash N k)).Insert k v)) ∧
    (∀ (st : GlobalState K V) (here : Nat) (k : K) (v : V),
      Hashmap.AsyncInsert hash N st here k v =
        setShard st (owner hash N k) ((st.shards (owner hash N k)).Insert k v)) ∧
    (∀ (st : GlobalState K V) (here : Nat) (k : K) (v : V) (j : Nat), j ≠ owner hash N k →
      (Hashmap.BufferedInsert hash N T st here k v).shards j = st.shards j) ∧
    (∀ (st : GlobalState K V) (here : Nat) (k : K) (v : V) (s d : Nat),
      ¬(s = here ∧ d = owner hash N k) →
      (Hashmap.BufferedInsert hash N T st here k v).buffers s d = st.buffers s d) ∧
    (∀ (st : GlobalState K V) (here : Nat) (k : K) (v : V) (j : Nat), j ≠ owner hash N k →
      (Hashmap.BufferedAsyncInsert hash N T st here k v).shards j = st.shards j) ∧
    (∀ (st : GlobalState K V) (here : Nat) (k : K) (v : V) (s d : Nat),
      ¬(s = here ∧ d = owner hash N k) →
      (Hashmap.BufferedAsyncInsert hash N T st here k v).buffers s d = st.buffers s d) ∧
    (∀ (st : GlobalState K V) (here : Nat) (k : K),
      Hashmap.Erase hash N st here k =
        setShard st (owner hash N k) ((st.shards (owner hash N k)).Erase k)) ∧
    (∀ (st : GlobalState K V) (here : Nat) (k : K),
      Hashmap.AsyncErase hash N st here k =
        setShard st (owner hash N k) ((st.shards (owner hash N k)).Erase k)) ∧
    (∀ (st : GlobalState K V) (here : Nat) (k : K) (res junk : V),
      Hashmap.Lookup hash N st here k res junk = (st.shards (owner hash N k)).Lookup k res) ∧
    (∀ (st : GlobalState K V) (here : Nat) (k : K) (res : LookupResult V) (junk : V),
      (Hashmap.AsyncLookup hash N st here k res junk).found =
        LocalHashmap.containsKey (st.shards (owner hash N k)) k) ∧
    (∀ (st : GlobalState K V) (here : Nat) (k : K) (f : K → V → V),
      Hashmap.Apply hash N st here k f =
        setShard st (owner hash N k) ((st.shards (owner hash N k)).Apply k f)) ∧
    (∀ (st : GlobalState K V) (here : Nat) (k : K) (f : K → V → V),
      Hashmap.AsyncApply hash N st here k f =
        setShard st (owner hash N k) ((st.shards (owner hash N k)).Apply k f)) ∧
    (∀ ops : List (InsOp K V), 0 < N → (∀ op ∈ ops, op.here < N) →
      (∀ (i : Nat) (k2 : K),
        LocalHashmap.containsKey ((runIns hash N T ops (emptyState K V)).shards i) k2 = true →
          i = owner hash N k2) ∧
      (∀ (i : Nat) (k2 : K),
        LocalHashmap.containsKey ((Hashmap.WaitForBufferedInsert N
            (runIns hash N T ops (emptyState K V))).shards i) k2 = true →
          i = owner hash N k2) ∧
      (∀ k2 : K, k2 ∈ ops.map InsOp.key →
        LocalHashmap.containsKey ((Hashmap.WaitForBufferedInsert N
            (runIns hash N T ops (emptyState K V))).shards (owner hash N k2)) k2 = true)) := by
  refine ⟨fun st here k v => Insert_eq hash N st here k v,
    fun st here k v => (AsyncInsert_eq_Insert hash N st here k v).trans (Insert_eq hash N st here k v),
    fun st here k v j hj => shards_BufferedInsert_ne hash N T st here k v j hj,
    fun st here k v s d hsd => buffers_BufferedInsert_ne hash N T st here k v s d hsd,
    fun st here k v j hj => ?_, fun st here k v s d hsd => ?_,
    fun st here k => Erase_eq hash N st here k,
    fun st here k => (AsyncErase_eq_Erase hash N st here k).trans (Erase_eq hash N st here k),
    fun st here k res junk => Lookup_eq hash N st here k res junk,
    fun st here k res junk => AsyncLookup_found_eq hash N st here k res junk,
    fun st here k f => Apply_eq hash N st here k f,
    fun st here k f => (AsyncApply_eq_Apply hash N st here k f).trans (Apply_eq hash N st here k f),
    fun ops hN hlt => ?_⟩
  · rw [BufferedAsyncInsert_eq_BufferedInsert]
    exact shards_BufferedInsert_ne hash N T st here k v j hj
  · rw [BufferedAsyncInsert_eq_BufferedInsert]
    exact buffers_BufferedInsert_ne hash N T st here k v s d hsd
  · have h0 := Inv_runIns hash N T ops (emptyState K V) [] hlt (Inv_empty hash N)
    refine ⟨?_, ?_, ?_⟩
    · intro i k2 hc
      exact (contains_owner_of_Inv hash N h0 hc).symm
    · intro i k2 hc
      exact (contains_owner_of_Inv hash N (Inv_Wait hash N h0) hc).symm
    · intro k2 hk
      exact contains_at_owner_after_Wait hash N hN h0 k2 (by simpa using hk)

/-- witness for C1 at a concrete instance: one buffered insert of key 1 from
locality 0 on a 2-locality fleet with identity hash; after the wait, key 1 is
resident at its owner's shard. -/
theorem c1_witness :
    ((0 : Nat) < 2) ∧
    (∀ op ∈ ([InsOp.bufferedInsert 0 1 5] : List (InsOp Nat Nat)), InsOp.here op < 2) ∧
    LocalHashmap.containsKey
      ((Hashmap.WaitForBufferedInsert 2 (runIns (fun k _ => k) 2 2
          ([InsOp.bufferedInsert 0 1 5] : List (InsOp Nat Nat)) (emptyState Nat Nat))).shards
        (owner (fun k _ => k) 2 1)) 1 = true :=
  ⟨by decide, by decide,
    ((c1_routing_to_owner (V := Nat) (fun k _ => k) 2 2).2.2.2.2.2.2.2.2.2.2.2.2
      ([InsOp.bufferedInsert 0 1 5] : List (InsOp Nat Nat)) (by decide) (by decide)).2.2
      1 (by decide)⟩

/-- Claim C2: for every key and value, on any calling localities, an Insert
followed by a Lookup of the same key returns true and writes the inserted
value into the out-cell. -/
theorem c2_insert_lookup_roundtrip (hash : K → Nat → Nat) (N : Nat) (st : GlobalState K V)
    (h1 h2 : Nat) (k : K) (v : V) (res junk : V) :
    Hashmap.Lookup hash N (Hashmap.Insert hash N st h1 k v) h2 k res junk = (true, v) := by
  rw [Lookup_eq, Insert_eq, shards_setShard, if_pos rfl]
  unfold LocalHashmap.Lookup
  rw [LocalHashmap.lookupKey_Insert]
  simp

/-- Claim C3: under the default overwrite policy, inserting twice under the
same key and then looking it up observes the second value. -/
theorem c3_overwrite (hash : K → Nat → Nat) (N : Nat) (st : GlobalState K V)
    (h1 h2 h3 : Nat) (k : K) (v1 v2 : V) (res junk : V) :
    Hashmap.Lookup hash N
      (Hashmap.Insert hash N (Hashmap.Insert hash N st h1 k v1) h2 k v2) h3 k res junk =
      (true, v2) := by
  rw [Lookup_eq, Insert_eq, shards_setShard, if_pos rfl]
  unfold LocalHashmap.Lookup
  rw [LocalHashmap.lookupKey_Insert]
  simp

/-- Claim C4: Erase removes the entry for the key from the owner's shard;
erasing an absent key is a no-op leaving the whole fleet state unchanged;
and Insert, Erase, Lookup of the same key returns false with the out-cell
untouched. -/
theorem c4_erase_semantics (hash : K → Nat → Nat) (N : Nat) :
    (∀ (st : GlobalState K V) (here : Nat) (k : K),
      LocalHashmap.containsKey
        ((Hashmap.Erase hash N st here k).shards (owner hash N k)) k = false) ∧
    (∀ (st : GlobalState K V) (here : Nat) (k : K),
      (∀ i, LocalHashmap.containsKey (st.shards i) k = false) →
      Hashmap.Erase hash N st here k = st) ∧
    (∀ (st : GlobalState K V) (h1 h2 h3 : Nat) (k : K) (v res junk : V),
      Hashmap.Lookup hash N
        (Hashmap.Erase hash N (Hashmap.Insert hash N st h1 k v) h2 k) h3 k res junk =
        (false, res)) := by
  refine ⟨?_, ?_, ?_⟩
  · intro st here k
    rw [Erase_eq, shards_setShard, if_pos rfl]
    simp [LocalHashmap.containsKey, LocalHashmap.lookupKey_Erase]
  · intro st here k h
    rw [Erase_eq, LocalHashmap.Erase_of_not_contains _ _ (h (owner hash N k))]
    refine GlobalState.ext (fun j => ?_) (fun s d => rfl)
    rw [shards_setShard]
    by_cases hj : j = owner hash N k
    · rw [if_pos hj, hj]
    · rw [if_neg hj]
  · intro st h1 h2 h3 k v res junk
    rw [Lookup_eq, Erase_eq, shards_setShard, if_pos rfl]
    refine Lookup_not_contains _ _ _ ?_
    simp [LocalHashmap.containsKey, LocalHashmap.lookupKey_Erase]

/-- witness for C4 at a concrete instance: erasing key 7 from a fresh
2-locality fleet leaves the state unchanged. -/
theorem c4_witness :
    (∀ i, LocalHashmap.containsKey ((emptyState Nat Nat).shards i) 7 = false) ∧
    Hashmap.Erase (fun k _ => k) 2 (emptyState Nat Nat) 0 7 = emptyState Nat Nat :=
  ⟨fun _ => rfl,
    (c4_erase_semantics (fun k _ => k) 2).2.1 (emptyState Nat Nat) 0 7 (fun _ => rfl)⟩

/-- Claim C5: looking up a key that is present in no shard returns false and
leaves the out-cell with its previous contents, whatever the uninitialized
remote scratch value was. -/
theorem c5_lookup_miss_untouched (hash : K → Nat → Nat) (N : Nat) (st : GlobalState K V)
    (here : Nat) (k : K) (res junk : V)
    (h : ∀ i, LocalHashmap.containsKey (st.shards i) k = false) :
    Hashmap.Lookup hash N st here k res junk = (false, res) := by
  rw [Lookup_eq]
  exact Lookup_not_contains _ _ _ (h _)

/-- witness for C5 at a concrete instance: key 3 is absent from a fresh
fleet and the out-cell keeps its prior contents 11. -/
theorem c5_witness :
    (∀ i, LocalHashmap.containsKey ((emptyState Nat Nat).shards i) 3 = false) ∧
    Hashmap.Lookup (fun k _ => k) 2 (emptyState Nat Nat) 0 3 11 99 = (false, 11) :=
  ⟨fun _ => rfl,
    c5_lookup_miss_untouched (fun k _ => k) 2 (emptyState Nat Nat) 0 3 11 99 (fun _ => rfl)⟩

/-- Claim C6 counterexample: with buffer capacity 1 on a 2-locality fleet
with identity hash, two BufferedInsert calls from locality 0 of keys owned
by locality 1 overflow the outbound buffer; the full batch is auto-shipped,
so the first entry is already visible to Lookup although
WaitForBufferedInsert was never called, contrary to the claim that
remote-owned buffered entries are not visible before the wait. -/
theorem c6_counterexample :
    (Hashmap.Lookup (fun k _ => k) 2 (runBufIns (fun k _ => k) 2 1
        ([(0, 1, 10), (0, 3, 11)] : List (Nat × Nat × Nat)) (emptyState Nat Nat))
      0 1 0 99).1 = true := by decide

/-- Claim C6 (amended): remote-owned buffered entries are not visible to
Lookup before WaitForBufferedInsert provided the aggregation buffers never
overflow - at most T buffered inserts in total, T being the buffer capacity
- since a full buffer auto-ships its batch early; unconditionally, after
WaitForBufferedInsert every buffered key is visible to Lookup, and a
subsequent Size equals the count of distinct keys inserted, starting from a
fresh instance. -/
theorem c6_buffered_visibility (hash : K → Nat → Nat) (N T : Nat) :
    (∀ (ops : List (Nat × K × V)) (k : K) (h2 : Nat) (res junk : V),
      ops.length ≤ T →
      (∀ o ∈ ops, o.2.1 = k → o.1 ≠ owner hash N k) →
      Hashmap.Lookup hash N (runBufIns hash N T ops (emptyState K V)) h2 k res junk =
        (false, res)) ∧
    (∀ (ops : List (Nat × K × V)) (k : K) (h2 : Nat) (res junk : V),
      0 < N → (∀ o ∈ ops, o.1 < N) → k ∈ ops.map (fun o => o.2.1) →
      (Hashmap.Lookup hash N (Hashmap.WaitForBufferedInsert N
          (runBufIns hash N T ops (emptyState K V))) h2 k res junk).1 = true) ∧
    (∀ (ops : List (Nat × K × V)) (here : Nat),
      0 < N → here < N → (∀ o ∈ ops, o.1 < N) →
      Hashmap.Size N
        (Hashmap.WaitForBufferedInsert N (runBufIns hash N T ops (emptyState K V))) here =
        (ops.map fun o => o.2.1).dedup.length) := by
  refine ⟨?_, ?_, ?_⟩
  · intro ops k h2 res junk hT hrem
    rw [Lookup_eq]
    refine Lookup_not_contains _ _ _ ?_
    cases hcs : LocalHashmap.containsKey
        ((runBufIns hash N T ops (emptyState K V)).shards (owner hash N k)) k with
    | false => rfl
    | true =>
      exfalso
      have hstart : ∀ s d, (((emptyState K V).buffers s d)).length + ops.length ≤ T := by
        intro s d
        simpa [emptyState] using hT
      rcases runBufIns_no_flush hash N T ops (emptyState K V) hstart (owner hash N k) k hcs
        with h3 | ⟨o, ho, hk, hown⟩
      · simp [emptyState, LocalHashmap.containsKey, LocalHashmap.lookupKey] at h3
      · exact hrem o ho hk (hk ▸ hown)
  · intro ops k h2 res junk hN hlt hk
    have h0 := Inv_runBufIns hash N T ops (emptyState K V) [] hlt (Inv_empty hash N)
    have hc := contains_at_owner_after_Wait hash N hN h0 k (by simpa using hk)
    rw [Lookup_eq]
    exact Lookup_found _ _ _ hc
  · intro ops here hN hh hlt
    have h0 := Inv_runBufIns hash N T ops (emptyState K V) [] hlt (Inv_empty hash N)
    have hW := Inv_Wait hash N h0
    have hbuf := buffers_Wait_empty hash N hN h0
    have hs := Size_distinct hash N hN hW hbuf here hh
    rw [hs]
    simp

/-- witness for C6 (amended) at a concrete instance: two buffered inserts of
distinct keys from in-range localities, then the wait; the collective size
probe counts 2 distinct keys. -/
theorem c6_witness :
    ((0 : Nat) < 2) ∧ ((0 : Nat) < 2) ∧
    (∀ o ∈ ([(0, 1, 10), (1, 2, 20)] : List (Nat × Nat × Nat)), o.1 < 2) ∧
    Hashmap.Size 2 (Hashmap.WaitForBufferedInsert 2 (runBufIns (fun k _ => k) 2 3
        ([(0, 1, 10), (1, 2, 20)] : List (Nat × Nat × Nat)) (emptyState Nat Nat))) 0 =
      (([(0, 1, 10), (1, 2, 20)] : List (Nat × Nat × Nat)).map fun o => o.2.1).dedup.length :=
  ⟨by decide, by decide, by decide,
    (c6_buffered_visibility (fun k _ => k) 2 3).2.2
      ([(0, 1, 10), (1, 2, 20)] : List (Nat × Nat × Nat)) 0 (by decide) (by decide) (by decide)⟩

/-- Claim C7: outbound buffers only ever hold entries owned by a locality
other than the buffering one (along any insertion trace from a fresh
instance, every buffered entry sits in the slot of its owner, which differs
from the source); a buffered insert of a locally-owned key inserts directly
into the local shard and leaves every buffer untouched; and a buffered
insert of a remotely-owned key, while the destination buffer is below its
capacity, only appends the entry to the buffer toward the owner, shipping
nothing to any shard. -/
theorem c7_buffers_remote_only (hash : K → Nat → Nat) (N T : Nat) :
    (∀ ops : List (InsOp K V),
      bufRemote hash N (runIns hash N T ops (emptyState K V))) ∧
    (∀ (st : GlobalState K V) (here : Nat) (k : K) (v : V), owner hash N k = here →
      Hashmap.BufferedInsert hash N T st here k v =
        setShard st here ((st.shards here).Insert k v) ∧
      Hashmap.BufferedAsyncInsert hash N T st here k v =
        setShard st here ((st.shards here).Insert k v)) ∧
    (∀ (st : GlobalState K V) (here : Nat) (k : K) (v : V), owner hash N k ≠ here →
      (st.buffers here (owner hash N k)).length < T →
      Hashmap.BufferedInsert hash N T st here k v =
        setBuf st here (owner hash N k)
          (st.buffers here (owner hash N k) ++ [EntryT.mk k v]) ∧
      Hashmap.BufferedAsyncInsert hash N T st here k v =
        setBuf st here (owner hash N k)
          (st.buffers here (owner hash N k) ++ [EntryT.mk k v])) := by
  refine ⟨?_, ?_, ?_⟩
  · intro ops
    refine bufRemote_runIns hash N T ops (emptyState K V) ?_
    intro s d e he
    exact absurd he (List.not_mem_nil e)
  · intro st here k v hloc
    constructor
    · unfold Hashmap.BufferedInsert
      rw [if_pos hloc]
    · rw [BufferedAsyncInsert_eq_BufferedInsert]
      unfold Hashmap.BufferedInsert
      rw [if_pos hloc]
  · intro st here k v hloc hb
    constructor
    · unfold Hashmap.BufferedInsert BuffersVector.Insert
      rw [if_neg hloc, if_pos hb]
    · rw [BufferedAsyncInsert_eq_BufferedInsert]
      unfold Hashmap.BufferedInsert BuffersVector.Insert
      rw [if_neg hloc, if_pos hb]

/-- witness for C7 at a concrete instance: key 1 is owned by locality 1, so a
buffered insert called on locality 1 goes straight into the local shard. -/
theorem c7_witness :
    owner (fun k _ => k) 2 1 = 1 ∧
    Hashmap.BufferedInsert (fun k _ => k) 2 4 (emptyState Nat Nat) 1 1 42 =
      setShard (emptyState Nat Nat) 1 (((emptyState Nat Nat).shards 1).Insert 1 42) :=
  ⟨rfl,
    ((c7_buffers_remote_only (fun k _ => k) 2 4).2.1 (emptyState Nat Nat) 1 1 42 rfl).1⟩

/-- Claim C8: Size returns the calling locality's own shard size plus the
sum of the sizes read synchronously from every other locality, which equals
the sum of all shard sizes over the fleet. -/
theorem c8_size_sum (N : Nat) (st : GlobalState K V) (here : Nat) (hh : here < N) :
    Hashmap.Size N st here = (st.shards here).length +
      (((List.range N).filter fun t => t ≠ here).map fun i => (st.shards i).length).sum ∧
    Hashmap.Size N st here = ((List.range N).map fun i => (st.shards i).length).sum := by
  constructor
  · unfold Hashmap.Size
    rw [foldl_if_add]
  · exact Size_eq_sum N st here hh

/-- witness for C8 at a concrete instance: the size probe from locality 0 of
a fresh 2-locality fleet equals the sum of all shard sizes. -/
theorem c8_witness :
    ((0 : Nat) < 2) ∧
    Hashmap.Size 2 (emptyState Nat Nat) 0 =
      ((List.range 2).map fun i => ((emptyState Nat Nat).shards i).length).sum :=
  ⟨by decide, (c8_size_sum 2 (emptyState Nat Nat) 0 (by decide)).2⟩

/-- Claim C9: the branch structure of Hashmap::Lookup always returns from
inside the local or the remote branch - the two-way branch always produces a
value - so the trailing return false is unreachable and the result of Lookup
is whatever the branches produced, independently of the fall-through
fallback value. -/
theorem c9_trailing_return_unreachable (hash : K → Nat → Nat) (N : Nat)
    (st : GlobalState K V) (here : Nat) (k : K) (res junk : V) :
    (Hashmap.lookupBranches hash N st here k res junk).isSome = true ∧
    ∀ fb : Bool × V, (Hashmap.lookupBranches hash N st here k res junk).getD fb =
      Hashmap.Lookup hash N st here k res junk := by
  have h1 := lookupBranches_isSome hash N st here k res junk
  refine ⟨h1, fun fb => ?_⟩
  unfold Hashmap.Lookup
  rcases Option.isSome_iff_exists.mp h1 with ⟨b, hb⟩
  rw [hb]
  rfl

/-- Claim C10: when the owner of the key is remote, AsyncLookup always
overwrites the whole out-parameter - found flag and value slot - even on a
miss, where the value slot receives the scratch LookupResult's value (junk)
rather than being left untouched; synchronous Lookup, in contrast, leaves
its out-cell untouched on the same miss. -/
theorem c10_asynclookup_writes_whole (hash : K → Nat → Nat) (N : Nat)
    (st : GlobalState K V) (here : Nat) (k : K) (res : LookupResult V) (junk : V)
    (h : owner hash N k ≠ here) :
    Hashmap.AsyncLookup hash N st here k res junk =
      LookupResult.mk (LocalHashmap.containsKey (st.shards (owner hash N k)) k)
        ((LocalHashmap.lookupKey (st.shards (owner hash N k)) k).getD junk) ∧
    (LocalHashmap.containsKey (st.shards (owner hash N k)) k = false →
      Hashmap.AsyncLookup hash N st here k res junk = LookupResult.mk false junk ∧
      ∀ res2 : V, Hashmap.Lookup hash N st here k res2 junk = (false, res2)) := by
  constructor
  · rw [AsyncLookup_remote hash N st here k res junk h]
  · intro hmiss
    constructor
    · rw [AsyncLookup_remote hash N st here k res junk h, hmiss]
      have hnone : LocalHashmap.lookupKey (st.shards (owner hash N k)) k = none := by
        cases hc : LocalHashmap.lookupKey (st.shards (owner hash N k)) k with
        | none => rfl
        | some v => simp [LocalHashmap.containsKey, hc] at hmiss
      rw [hnone]
      rfl
    · intro res2
      rw [Lookup_eq]
      exact Lookup_not_contains _ _ _ hmiss

/-- witness for C10 at a concrete instance: key 1 is owned by locality 1,
remote from locality 0; the whole out-parameter, previously holding
(true, 55), is overwritten by the remote lookup result. -/
theorem c10_witness :
    owner (fun k _ => k) 2 1 ≠ 0 ∧
    Hashmap.AsyncLookup (fun k _ => k) 2 (emptyState Nat Nat) 0 1
        (LookupResult.mk true 55) 99 =
      LookupResult.mk
        (LocalHashmap.containsKey ((emptyState Nat Nat).shards (owner (fun k _ => k) 2 1)) 1)
        ((LocalHashmap.lookupKey ((emptyState Nat Nat).shards (owner (fun k _ => k) 2 1)) 1).getD 99) :=
  ⟨by decide,
    (c10_asynclookup_writes_whole (fun k _ => k) 2 (emptyState Nat Nat) 0 1
      (LookupResult.mk true 55) 99 (by decide)).1⟩

end Claims

end SHAD
